import Mathlib

/-!
Shallow embedding of the revolute joint model of `moveit_core`
(`src/robot_model2/src/revolute_joint_model.cpp`) and of the dense-vector
state setter of `planning_models/kinematic_state.h`, together with proofs
of the spec's testable properties.  C++ `double` values are idealized as
real numbers; `fmod` is the C truncated-division remainder.
-/

namespace MoveitCore

open Real

/-- Truncation toward zero of a real number, as C's cast/`trunc`. -/
noncomputable def truncR (x : ℝ) : ℤ :=
  if 0 ≤ x then ⌊x⌋ else ⌈x⌉

/-- C `fmod`: `x - y * trunc (x / y)`; result has the sign of `x` and
magnitude below `|y|`. -/
noncomputable def fmod (x y : ℝ) : ℝ :=
  x - y * (truncR (x / y) : ℝ)

/-- One variable's bounds record, mirroring `JointModel::Bounds` entries:
`min_position_`, `max_position_`, `position_bounded_`. -/
structure VariableBounds where
  min_position : ℝ
  max_position : ℝ
  position_bounded : Bool

/-- The configuration state of a `RevoluteJointModel`: the rotation axis,
the `continuous_` flag and the single variable's bounds. -/
structure RevoluteJointModel where
  axis : ℝ × ℝ × ℝ
  continuous : Bool
  variable_bounds : VariableBounds

/-- The model as left by the constructor `RevoluteJointModel(name)`:
zero axis, not continuous, bounds `[-π, π]` with `position_bounded_ = true`. -/
noncomputable def defaultRevolute : RevoluteJointModel :=
  { axis := (0, 0, 0)
    continuous := false
    variable_bounds :=
      { min_position := -π, max_position := π, position_bounded := true } }

/-- `setContinuous(flag)`: for `true` it clears `position_bounded_` and
resets the bounds to `[-π, π]`; for `false` it only restores
`position_bounded_`.  The source never assigns the `continuous_` member
here, so the flag field is left untouched. -/
noncomputable def setContinuous (m : RevoluteJointModel) (flag : Bool) :
    RevoluteJointModel :=
  if flag then
    { m with variable_bounds :=
               { min_position := -π, max_position := π
                 position_bounded := false } }
  else
    { m with variable_bounds :=
               { m.variable_bounds with position_bounded := true } }

/-- The member state of a continuous-mode revolute joint used in the
concrete scenarios: `continuous_` set (by the out-of-scope model
construction), bounds `[-π, π]` with `position_bounded_ = false` exactly
as `setContinuous(true)` leaves them, axis still the constructor's
zero vector (no claim below reads it). -/
noncomputable def contRevolute : RevoluteJointModel :=
  { axis := (0, 0, 0)
    continuous := true
    variable_bounds :=
      { min_position := -π, max_position := π, position_bounded := false } }

/-- The correction step of the continuous branch of `enforceBounds`
(lines 160-164): add `2π` below `-π`, subtract `2π` above `π`. -/
noncomputable def enforceCorrect (v1 : ℝ) : ℝ :=
  if v1 < -π then v1 + 2 * π
  else if v1 > π then v1 - 2 * π
  else v1

/-- `RevoluteJointModel::enforceBounds` on the single variable: in
continuous mode, reduce modulo `2π` and apply one correction step; in
bounded mode, clamp to `[min, max]`. -/
noncomputable def enforceBounds (m : RevoluteJointModel)
    (bounds : VariableBounds) (v : ℝ) : ℝ :=
  if m.continuous then
    enforceCorrect (fmod v (2 * π))
  else
    if v < bounds.min_position then bounds.min_position
    else if v > bounds.max_position then bounds.max_position
    else v

/-- The complementary-arc delta of `interpolate` (lines 117-120):
`±2π − diff`. -/
noncomputable def compDiff (diff : ℝ) : ℝ :=
  if diff > 0 then 2 * π - diff else -(2 * π) - diff

/-- The wraparound correction applied to the intermediate interpolation
result (lines 123-127): subtract `2π` above `π`, add `2π` below `-π`. -/
noncomputable def wrapCorrect (s : ℝ) : ℝ :=
  if s > π then s - 2 * π
  else if s < -π then s + 2 * π
  else s

/-- `RevoluteJointModel::interpolate` on the single variable. In
continuous mode with raw delta of magnitude above `π` it takes the
complementary arc and applies one wraparound correction; otherwise it is
the linear blend. -/
noncomputable def interpolate (m : RevoluteJointModel)
    (fr tov t : ℝ) : ℝ :=
  if m.continuous then
    if |tov - fr| ≤ π then fr + (tov - fr) * t
    else wrapCorrect (fr - compDiff (tov - fr) * t)
  else
    fr + (tov - fr) * t

/-- `RevoluteJointModel::distance` on the single variable. -/
noncomputable def distance (m : RevoluteJointModel) (a b : ℝ) : ℝ :=
  if m.continuous then
    if |a - b| > π then 2 * π - |a - b| else |a - b|
  else
    |a - b|

/-- `RevoluteJointModel::satisfiesBounds` on the single variable. -/
noncomputable def satisfiesBounds (m : RevoluteJointModel)
    (bounds : VariableBounds) (v margin : ℝ) : Bool :=
  if m.continuous then true
  else if v < bounds.min_position - margin ∨
          v > bounds.max_position + margin then false
  else true

/-- `RevoluteJointModel::getVariableDefaultValues`. -/
noncomputable def getVariableDefaultValues (bounds : VariableBounds) : ℝ :=
  if bounds.min_position ≤ 0 ∧ 0 ≤ bounds.max_position then 0
  else (bounds.min_position + bounds.max_position) / 2

/-- `RevoluteJointModel::getMaximumExtent`: reads only the member bounds,
never the argument. -/
noncomputable def getMaximumExtent (m : RevoluteJointModel)
    (other_bounds : VariableBounds) : ℝ :=
  m.variable_bounds.max_position - m.variable_bounds.min_position

/-- The rotation part of an `Eigen::Affine3d`: a 3×3 matrix of reals,
row-major fields `mRC`. -/
structure Matrix3 where
  m00 : ℝ
  m01 : ℝ
  m02 : ℝ
  m10 : ℝ
  m11 : ℝ
  m12 : ℝ
  m20 : ℝ
  m21 : ℝ
  m22 : ℝ

/-- A quaternion `(w, x, y, z)`. -/
structure Quat where
  w : ℝ
  x : ℝ
  y : ℝ
  z : ℝ

/-- `Eigen::Quaterniond::normalize`: divide by the Euclidean norm. -/
noncomputable def Quat.normalize (q : Quat) : Quat :=
  ⟨q.w / Real.sqrt (q.w ^ 2 + q.x ^ 2 + q.y ^ 2 + q.z ^ 2),
   q.x / Real.sqrt (q.w ^ 2 + q.x ^ 2 + q.y ^ 2 + q.z ^ 2),
   q.y / Real.sqrt (q.w ^ 2 + q.x ^ 2 + q.y ^ 2 + q.z ^ 2),
   q.z / Real.sqrt (q.w ^ 2 + q.x ^ 2 + q.y ^ 2 + q.z ^ 2)⟩

/-- `RevoluteJointModel::computeTransform`: the rotation of the joint
value about `axis_`, as Eigen materializes
`Affine3d(AngleAxisd(v, axis))` into a rotation matrix (Rodrigues
form: `cos v · I + sin v · [axis]ₓ + (1 − cos v) · axis axisᵀ`). -/
noncomputable def computeTransform (m : RevoluteJointModel) (v : ℝ) :
    Matrix3 :=
  { m00 := Real.cos v + m.axis.1 ^ 2 * (1 - Real.cos v)
    m01 := m.axis.1 * m.axis.2.1 * (1 - Real.cos v) - m.axis.2.2 * Real.sin v
    m02 := m.axis.1 * m.axis.2.2 * (1 - Real.cos v) + m.axis.2.1 * Real.sin v
    m10 := m.axis.1 * m.axis.2.1 * (1 - Real.cos v) + m.axis.2.2 * Real.sin v
    m11 := Real.cos v + m.axis.2.1 ^ 2 * (1 - Real.cos v)
    m12 := m.axis.2.1 * m.axis.2.2 * (1 - Real.cos v) - m.axis.1 * Real.sin v
    m20 := m.axis.1 * m.axis.2.2 * (1 - Real.cos v) - m.axis.2.1 * Real.sin v
    m21 := m.axis.2.1 * m.axis.2.2 * (1 - Real.cos v) + m.axis.1 * Real.sin v
    m22 := Real.cos v + m.axis.2.2 ^ 2 * (1 - Real.cos v) }

/-- Eigen's rotation-matrix → quaternion conversion (the
`Quaterniond(Matrix)` constructor used at `computeVariableValues`):
with positive trace, `w = √(trace+1)/2 ≥ 0`; otherwise the largest
diagonal entry (index scan `i := 0; if m11 > m00 then i := 1;
if m22 > m_ii then i := 2`) selects the dominant vector component,
which is made nonnegative, and `w = (m_kj − m_jk)/(2√(m_ii−m_jj−m_kk+1))`
inherits the sign of that off-diagonal difference. -/
noncomputable def quatFromRotation (a : Matrix3) : Quat :=
  if a.m00 + a.m11 + a.m22 > 0 then
    ⟨Real.sqrt (a.m00 + a.m11 + a.m22 + 1) / 2,
     (a.m21 - a.m12) / (2 * Real.sqrt (a.m00 + a.m11 + a.m22 + 1)),
     (a.m02 - a.m20) / (2 * Real.sqrt (a.m00 + a.m11 + a.m22 + 1)),
     (a.m10 - a.m01) / (2 * Real.sqrt (a.m00 + a.m11 + a.m22 + 1))⟩
  else if a.m11 > a.m00 then
    if a.m22 > a.m11 then
      ⟨(a.m10 - a.m01) / (2 * Real.sqrt (a.m22 - a.m00 - a.m11 + 1)),
       (a.m02 + a.m20) / (2 * Real.sqrt (a.m22 - a.m00 - a.m11 + 1)),
       (a.m12 + a.m21) / (2 * Real.sqrt (a.m22 - a.m00 - a.m11 + 1)),
       Real.sqrt (a.m22 - a.m00 - a.m11 + 1) / 2⟩
    else
      ⟨(a.m02 - a.m20) / (2 * Real.sqrt (a.m11 - a.m22 - a.m00 + 1)),
       (a.m01 + a.m10) / (2 * Real.sqrt (a.m11 - a.m22 - a.m00 + 1)),
       Real.sqrt (a.m11 - a.m22 - a.m00 + 1) / 2,
       (a.m21 + a.m12) / (2 * Real.sqrt (a.m11 - a.m22 - a.m00 + 1))⟩
  else if a.m22 > a.m00 then
    ⟨(a.m10 - a.m01) / (2 * Real.sqrt (a.m22 - a.m00 - a.m11 + 1)),
     (a.m02 + a.m20) / (2 * Real.sqrt (a.m22 - a.m00 - a.m11 + 1)),
     (a.m12 + a.m21) / (2 * Real.sqrt (a.m22 - a.m00 - a.m11 + 1)),
     Real.sqrt (a.m22 - a.m00 - a.m11 + 1) / 2⟩
  else
    ⟨(a.m21 - a.m12) / (2 * Real.sqrt (a.m00 - a.m11 - a.m22 + 1)),
     Real.sqrt (a.m00 - a.m11 - a.m22 + 1) / 2,
     (a.m10 + a.m01) / (2 * Real.sqrt (a.m00 - a.m11 - a.m22 + 1)),
     (a.m20 + a.m02) / (2 * Real.sqrt (a.m00 - a.m11 - a.m22 + 1))⟩

/-- `RevoluteJointModel::computeVariableValues`: rebuild the quaternion
from the transform's rotation matrix (`Quaterniond q(transf.rotation())`),
normalize it, and return `acos(q.w()) · 2`. -/
noncomputable def computeVariableValues (transf : Matrix3) : ℝ :=
  Real.arccos (quatFromRotation transf).normalize.w * 2

/-- A revolute joint configured with the unit axis `(0, 0, 1)` (the
constructor itself leaves the axis zero; configuration is out-of-scope
model construction). -/
noncomputable def zAxisJoint : RevoluteJointModel :=
  { axis := (0, 0, 1)
    continuous := false
    variable_bounds :=
      { min_position := -π, max_position := π, position_bounded := true } }

/-- Modelled from the spec: the body of `KinematicState`'s dense-vector
setter is not among the sources, only its declaration in
`kinematic_state.h`.  Per the spec, a `KinematicState` holds current joint
values in the model's canonical order; the model's variable count is fixed
at construction.  Joint values are flattened into one list. -/
structure KinematicState where
  variableCount : ℕ
  values : List ℝ

/-- Modelled from the spec: `KinematicState::setStateValues(vector)`
"fails — returns a failure indicator — if length mismatches; leaves
state unchanged on mismatch"; on a length match it stores the values in
canonical order and reports success. -/
def setStateValues (s : KinematicState) (joint_state_values : List ℝ) :
    Bool × KinematicState :=
  if joint_state_values.length = s.variableCount then
    (true, { s with values := joint_state_values })
  else
    (false, s)

/-! ### Helper lemmas about `fmod` -/

/-- `fmod x y` differs from `x` by an integer multiple of `y`. -/
theorem fmod_sub_int (x y : ℝ) : ∃ k : ℤ, fmod x y = x - y * k :=
  ⟨truncR (x / y), rfl⟩

/-- For positive modulus, `fmod` lands strictly inside `(-y, y)`. -/
theorem fmod_bounds (x y : ℝ) (hy : 0 < y) :
    -y < fmod x y ∧ fmod x y < y := by
  have hx : x = y * (x / y) := by field_simp
  unfold fmod truncR
  split_ifs with h
  · have h1 : ((⌊x / y⌋ : ℤ) : ℝ) ≤ x / y := Int.floor_le (x / y)
    have h2 : x / y < (⌊x / y⌋ : ℤ) + 1 := Int.lt_floor_add_one (x / y)
    constructor <;> nlinarith
  · have h1 : x / y ≤ ((⌈x / y⌉ : ℤ) : ℝ) := Int.le_ceil (x / y)
    have h2 : ((⌈x / y⌉ : ℤ) : ℝ) < x / y + 1 := Int.ceil_lt_add_one (x / y)
    constructor <;> nlinarith

/-! ### Claim theorems -/

/-- C1 counterexample: at input `-π`, the continuous-mode `enforceBounds`
returns `-π` itself (its `fmod` by `2π` is `-π` and neither correction
fires), so the result is not in the half-open interval `(-π, π]`. -/
theorem enforceBounds_neg_pi_cex :
    enforceBounds contRevolute contRevolute.variable_bounds (-π) = -π ∧
    ¬ (-π < enforceBounds contRevolute contRevolute.variable_bounds (-π)) := by
  have hpi : (0:ℝ) < π := pi_pos
  have hcont : contRevolute.continuous = true := rfl
  have hdiv : (-π) / (2 * π) = -(1 / 2 : ℝ) := by
    rw [div_eq_iff (by positivity)]
    ring
  have htr : truncR ((-π) / (2 * π)) = 0 := by
    rw [hdiv]
    unfold truncR
    rw [if_neg (by norm_num)]
    norm_num
  have hfmod : fmod (-π) (2 * π) = -π := by
    unfold fmod
    rw [htr]
    push_cast
    ring
  have h : enforceBounds contRevolute contRevolute.variable_bounds (-π) = -π := by
    unfold enforceBounds enforceCorrect
    rw [hcont]
    simp only [if_true]
    rw [hfmod, if_neg (lt_irrefl _), if_neg (by linarith)]
  exact ⟨h, by rw [h]; exact lt_irrefl _⟩

/-- C1 (amended): for a continuous-mode revolute joint, `enforceBounds`
yields a value in the closed interval `[-π, π]` that is congruent to the
input modulo `2π`; inputs whose `fmod` by `2π` lands exactly on `-π`
(such as `v = -π`) yield `-π`, the boundary point outside `(-π, π]`. -/
theorem enforceBounds_continuous_canonical (m : RevoluteJointModel)
    (bounds : VariableBounds) (v : ℝ) (hc : m.continuous = true) :
    (-π ≤ enforceBounds m bounds v ∧ enforceBounds m bounds v ≤ π) ∧
    ∃ k : ℤ, enforceBounds m bounds v = v + 2 * π * k := by
  have hpi : (0:ℝ) < π := pi_pos
  obtain ⟨k0, hk0⟩ := fmod_sub_int v (2 * π)
  obtain ⟨hb1, hb2⟩ := fmod_bounds v (2 * π) (by linarith)
  unfold enforceBounds enforceCorrect
  rw [hc]
  simp only [if_true]
  split_ifs with h1 h2
  · exact ⟨⟨by linarith, by linarith⟩,
      ⟨1 - k0, by rw [hk0]; push_cast; ring⟩⟩
  · exact ⟨⟨by linarith, by linarith⟩,
      ⟨-1 - k0, by rw [hk0]; push_cast; ring⟩⟩
  · exact ⟨⟨by linarith, by linarith⟩,
      ⟨-k0, by rw [hk0]; push_cast; ring⟩⟩

/-- C1 (amended) witness at `v = π/2` on the continuous joint. -/
theorem enforceBounds_continuous_canonical_witness :
    (-π ≤ enforceBounds contRevolute contRevolute.variable_bounds (π / 2) ∧
      enforceBounds contRevolute contRevolute.variable_bounds (π / 2) ≤ π) ∧
    ∃ k : ℤ, enforceBounds contRevolute contRevolute.variable_bounds (π / 2) =
      π / 2 + 2 * π * k :=
  enforceBounds_continuous_canonical contRevolute contRevolute.variable_bounds
    (π / 2) rfl

/-- C6: `satisfiesBounds` is constantly true in continuous mode; in
bounded mode it holds exactly on `[min - margin, max + margin]`. -/
theorem satisfiesBounds_spec (m : RevoluteJointModel)
    (bounds : VariableBounds) (v margin : ℝ) :
    (m.continuous = true → satisfiesBounds m bounds v margin = true) ∧
    (m.continuous = false →
      (satisfiesBounds m bounds v margin = true ↔
        bounds.min_position - margin ≤ v ∧
        v ≤ bounds.max_position + margin)) := by
  unfold satisfiesBounds
  constructor
  · intro hc
    rw [hc]
    simp
  · intro hc
    rw [hc]
    simp only [Bool.false_eq_true, if_false]
    split_ifs with h
    · simp only [Bool.false_eq_true, false_iff, not_and, not_le]
      rcases h with h | h
      · intro h1
        linarith
      · intro h1
        linarith
    · push_neg at h
      simp only [true_iff]
      exact ⟨h.1, h.2⟩

/-- C6 witness: the default bounded joint at value `0` with margin `0`. -/
theorem satisfiesBounds_spec_witness :
    satisfiesBounds defaultRevolute defaultRevolute.variable_bounds 0 0 = true := by
  rw [(satisfiesBounds_spec defaultRevolute defaultRevolute.variable_bounds 0 0).2 rfl]
  have hpi : (0:ℝ) < π := pi_pos
  show -π - 0 ≤ 0 ∧ (0:ℝ) ≤ π + 0
  constructor <;> linarith

/-- C7: bounded-mode `enforceBounds` clamps an out-of-range value to the
nearest bound and leaves an in-range value unchanged. -/
theorem enforceBounds_bounded_clamps (m : RevoluteJointModel)
    (bounds : VariableBounds) (v : ℝ) (hc : m.continuous = false)
    (hmm : bounds.min_position ≤ bounds.max_position) :
    (v < bounds.min_position →
      enforceBounds m bounds v = bounds.min_position) ∧
    (v > bounds.max_position →
      enforceBounds m bounds v = bounds.max_position) ∧
    (bounds.min_position ≤ v → v ≤ bounds.max_position →
      enforceBounds m bounds v = v) := by
  unfold enforceBounds
  rw [hc]
  simp only [Bool.false_eq_true, if_false]
  refine ⟨?_, ?_, ?_⟩
  · intro h
    rw [if_pos h]
  · intro h
    rw [if_neg (by linarith), if_pos h]
  · intro h1 h2
    rw [if_neg (by linarith), if_neg (by linarith)]

/-- C7 witness on the default bounded joint: clamping below, above and
inside `[-π, π]`. -/
theorem enforceBounds_bounded_clamps_witness :
    enforceBounds defaultRevolute defaultRevolute.variable_bounds 0 = 0 :=
  (enforceBounds_bounded_clamps defaultRevolute defaultRevolute.variable_bounds
    0 rfl (by have := pi_pos; show -π ≤ π; linarith)).2.2
    (by have := pi_pos; show -π ≤ 0; linarith)
    (by have := pi_pos; show (0:ℝ) ≤ π; linarith)

/-- C8: `getVariableDefaultValues` is zero whenever zero is within the
bounds and the bound midpoint otherwise; it is a pure function of the
bounds alone. -/
theorem getVariableDefaultValues_policy (bounds : VariableBounds) :
    (bounds.min_position ≤ 0 → 0 ≤ bounds.max_position →
      getVariableDefaultValues bounds = 0) ∧
    (¬ (bounds.min_position ≤ 0 ∧ 0 ≤ bounds.max_position) →
      getVariableDefaultValues bounds =
        (bounds.min_position + bounds.max_position) / 2) := by
  unfold getVariableDefaultValues
  constructor
  · intro h1 h2
    rw [if_pos ⟨h1, h2⟩]
  · intro h
    rw [if_neg h]

/-- C8 witness: bounds `[1, 3]` exclude zero, so the default is the
midpoint `2`; bounds `[-1, 1]` contain zero, so the default is `0`. -/
theorem getVariableDefaultValues_policy_witness :
    getVariableDefaultValues ⟨1, 3, true⟩ = 2 ∧
    getVariableDefaultValues ⟨-1, 1, true⟩ = 0 := by
  constructor
  · rw [(getVariableDefaultValues_policy ⟨1, 3, true⟩).2 (by norm_num)]
    norm_num
  · exact (getVariableDefaultValues_policy ⟨-1, 1, true⟩).1 (by norm_num) (by norm_num)

/-- C10: `getMaximumExtent` ignores its `other_bounds` argument and
returns the member bounds' width, which is `2π` for the constructor's
default configuration. -/
theorem getMaximumExtent_ignores_argument (m : RevoluteJointModel)
    (b1 b2 : VariableBounds) :
    getMaximumExtent m b1 = getMaximumExtent m b2 ∧
    getMaximumExtent m b1 =
      m.variable_bounds.max_position - m.variable_bounds.min_position ∧
    getMaximumExtent defaultRevolute b1 = 2 * π := by
  refine ⟨rfl, rfl, ?_⟩
  show π - -π = 2 * π
  ring

/-- C5: `distance` is symmetric in both modes; in continuous mode with
both inputs in the canonical interval `(-π, π]`, it lies in `[0, π]`. -/
theorem distance_symm_and_range (m : RevoluteJointModel) (a b : ℝ) :
    distance m a b = distance m b a ∧
    (m.continuous = true → -π < a → a ≤ π → -π < b → b ≤ π →
      0 ≤ distance m a b ∧ distance m a b ≤ π) := by
  have hpi : (0:ℝ) < π := pi_pos
  constructor
  · unfold distance
    rw [abs_sub_comm a b]
  · intro hc ha1 ha2 hb1 hb2
    have habs : |a - b| < 2 * π := abs_lt.mpr ⟨by linarith, by linarith⟩
    have habs0 : 0 ≤ |a - b| := abs_nonneg _
    unfold distance
    rw [hc]
    simp only [if_true]
    split_ifs with h
    · constructor <;> linarith
    · push_neg at h
      constructor <;> linarith

/-- C5 witness: the continuous joint at `a = 0`, `b = 1`. -/
theorem distance_symm_and_range_witness :
    0 ≤ distance contRevolute 0 1 ∧ distance contRevolute 0 1 ≤ π :=
  (distance_symm_and_range contRevolute 0 1).2 rfl
    (by linarith [pi_pos]) (by linarith [pi_pos])
    (by linarith [pi_pos]) (by linarith [Real.pi_gt_three])

/-- C2 counterexample: for the continuous joint with `from = -1`,
`to = π` (both within bounds, raw delta `π + 1 > π`), the complementary
branch lands exactly on `-π` and the correction does not fire, so
`interpolate(from, to, 1)` is `-π`, not `to = π`. -/
theorem interpolate_endpoint_cex :
    interpolate contRevolute (-1) π 1 = -π ∧
    interpolate contRevolute (-1) π 1 ≠ π := by
  have hpi : (0:ℝ) < π := pi_pos
  have hcont : contRevolute.continuous = true := rfl
  have h1 : ¬ (|π - (-1 : ℝ)| ≤ π) := by
    rw [abs_of_pos (by linarith)]
    linarith
  have h2 : compDiff (π - (-1 : ℝ)) = π - 1 := by
    unfold compDiff
    rw [if_pos (by linarith)]
    ring
  have h3 : (-1 : ℝ) - (π - 1) * 1 = -π := by ring
  have h4 : wrapCorrect (-π) = -π := by
    unfold wrapCorrect
    rw [if_neg (by linarith), if_neg (lt_irrefl _)]
  have h : interpolate contRevolute (-1) π 1 = -π := by
    unfold interpolate
    rw [hcont]
    simp only [if_true]
    rw [if_neg h1, h2, h3, h4]
  refine ⟨h, ?_⟩
  rw [h]
  intro heq
  linarith

/-- C2 (amended): for both modes and `from`, `to` within `[-π, π]`,
`interpolate(from, to, 0) = from`; `interpolate(from, to, 1)` is
congruent to `to` modulo `2π`, and equals `to` exactly whenever
`|to| < π`; when the complementary-arc branch is taken and `to = ±π`,
the result is the other representative `∓π`. -/
theorem interpolate_endpoints (m : RevoluteJointModel) (fr tov : ℝ)
    (hf1 : -π ≤ fr) (hf2 : fr ≤ π) (ht1 : -π ≤ tov) (ht2 : tov ≤ π) :
    interpolate m fr tov 0 = fr ∧
    (∃ k : ℤ, interpolate m fr tov 1 = tov + 2 * π * k) ∧
    (|tov| < π → interpolate m fr tov 1 = tov) := by
  have hpi : (0:ℝ) < π := pi_pos
  refine ⟨?_, ?_, ?_⟩
  · unfold interpolate compDiff wrapCorrect
    split_ifs <;> linarith
  · unfold interpolate
    split_ifs with hc hle
    · exact ⟨0, by push_cast; ring⟩
    · rcases lt_or_le 0 (tov - fr) with hd | hd
      · have hcd : compDiff (tov - fr) = 2 * π - (tov - fr) := by
          unfold compDiff
          rw [if_pos hd]
        have hs : fr - (2 * π - (tov - fr)) * 1 = tov - 2 * π := by ring
        rw [hcd, hs]
        unfold wrapCorrect
        split_ifs
        · exact ⟨-2, by push_cast; ring⟩
        · exact ⟨0, by push_cast; ring⟩
        · exact ⟨-1, by push_cast; ring⟩
      · have hcd : compDiff (tov - fr) = -(2 * π) - (tov - fr) := by
          unfold compDiff
          rw [if_neg (not_lt.mpr hd)]
        have hs : fr - (-(2 * π) - (tov - fr)) * 1 = tov + 2 * π := by ring
        rw [hcd, hs]
        unfold wrapCorrect
        split_ifs
        · exact ⟨0, by push_cast; ring⟩
        · exact ⟨2, by push_cast; ring⟩
        · exact ⟨1, by push_cast; ring⟩
    · exact ⟨0, by push_cast; ring⟩
  · intro htv
    rw [abs_lt] at htv
    unfold interpolate
    split_ifs with hc hle
    · ring
    · rcases lt_or_le 0 (tov - fr) with hd | hd
      · have hcd : compDiff (tov - fr) = 2 * π - (tov - fr) := by
          unfold compDiff
          rw [if_pos hd]
        have hs : fr - (2 * π - (tov - fr)) * 1 = tov - 2 * π := by ring
        rw [hcd, hs]
        unfold wrapCorrect
        rw [if_neg (by linarith), if_pos (by linarith)]
        ring
      · have hcd : compDiff (tov - fr) = -(2 * π) - (tov - fr) := by
          unfold compDiff
          rw [if_neg (not_lt.mpr hd)]
        have hs : fr - (-(2 * π) - (tov - fr)) * 1 = tov + 2 * π := by ring
        rw [hcd, hs]
        unfold wrapCorrect
        rw [if_pos (by linarith)]
        ring
    · ring

/-- C2 (amended) witness: continuous joint, `from = 0`, `to = 1`. -/
theorem interpolate_endpoints_witness :
    interpolate contRevolute 0 1 0 = 0 ∧
    (∃ k : ℤ, interpolate contRevolute 0 1 1 = 1 + 2 * π * k) ∧
    (|(1:ℝ)| < π → interpolate contRevolute 0 1 1 = 1) :=
  interpolate_endpoints contRevolute 0 1 (by linarith [pi_pos])
    (by linarith [pi_pos]) (by linarith [Real.pi_gt_three])
    (by linarith [Real.pi_gt_three])

/-- C3: for the continuous joint with `from = 3`, `to = -3`, the raw
delta magnitude `6` exceeds `π`, the complementary branch is taken, and
the result at `t = 0.5` is exactly `π`, a canonical value in
`(-π, π]`. -/
theorem interpolate_wraparound_scenario :
    interpolate contRevolute 3 (-3) 0.5 = π ∧
    -π < interpolate contRevolute 3 (-3) 0.5 ∧
    interpolate contRevolute 3 (-3) 0.5 ≤ π ∧
    π < |(-3 : ℝ) - 3| := by
  have hpi : (0:ℝ) < π := pi_pos
  have hpi6 : π < 6 := by linarith [Real.pi_lt_d2]
  have hcont : contRevolute.continuous = true := rfl
  have habs : |(-3 : ℝ) - 3| = 6 := by norm_num
  have h1 : ¬ (|(-3 : ℝ) - 3| ≤ π) := by
    rw [habs]
    linarith
  have h2 : compDiff ((-3 : ℝ) - 3) = -(2 * π) + 6 := by
    unfold compDiff
    rw [if_neg (by norm_num)]
    ring
  have h3 : (3 : ℝ) - (-(2 * π) + 6) * 0.5 = π := by ring
  have h4 : wrapCorrect π = π := by
    unfold wrapCorrect
    rw [if_neg (lt_irrefl _), if_neg (by linarith)]
  have h : interpolate contRevolute 3 (-3) 0.5 = π := by
    unfold interpolate
    rw [hcont]
    simp only [if_true]
    rw [if_neg h1, h2, h3, h4]
  refine ⟨h, ?_, ?_, ?_⟩
  · rw [h]
    linarith
  · rw [h]
  · rw [habs]
    linarith

/-- With a unit axis and a positive-trace rotation matrix, Eigen's
conversion recovers the quaternion `(cos(v/2), sin(v/2)·axis)`. -/
theorem quatFromRotation_pos_trace (m : RevoluteJointModel)
    (hax : m.axis.1 ^ 2 + m.axis.2.1 ^ 2 + m.axis.2.2 ^ 2 = 1) (v : ℝ)
    (hv : |v| ≤ π) (hc : -(1 / 2) < Real.cos v) :
    quatFromRotation (computeTransform m v) =
      ⟨Real.cos (v / 2), Real.sin (v / 2) * m.axis.1,
       Real.sin (v / 2) * m.axis.2.1, Real.sin (v / 2) * m.axis.2.2⟩ := by
  obtain ⟨hv1, hv2⟩ := abs_le.mp hv
  have hpi : (0:ℝ) < π := pi_pos
  have hcos_nn : 0 ≤ Real.cos (v / 2) :=
    Real.cos_nonneg_of_mem_Icc ⟨by linarith, by linarith⟩
  have hcd : Real.cos v = 2 * Real.cos (v / 2) ^ 2 - 1 := by
    have h2 := Real.cos_two_mul (v / 2)
    rw [show 2 * (v / 2) = v from by ring] at h2
    exact h2
  have hcpos : 0 < Real.cos (v / 2) := by nlinarith
  have hsd : Real.sin v = 2 * Real.sin (v / 2) * Real.cos (v / 2) := by
    have h2 := Real.sin_two_mul (v / 2)
    rw [show 2 * (v / 2) = v from by ring] at h2
    exact h2
  have htr : (computeTransform m v).m00 + (computeTransform m v).m11 +
      (computeTransform m v).m22 = 1 + 2 * Real.cos v := by
    unfold computeTransform
    dsimp only
    linear_combination (1 - Real.cos v) * hax
  have hpos : (computeTransform m v).m00 + (computeTransform m v).m11 +
      (computeTransform m v).m22 > 0 := by
    rw [htr]
    linarith
  have hsq : Real.sqrt ((computeTransform m v).m00 +
      (computeTransform m v).m11 + (computeTransform m v).m22 + 1) =
      2 * Real.cos (v / 2) := by
    rw [htr, show (1 + 2 * Real.cos v + 1 : ℝ) =
      (2 * Real.cos (v / 2)) ^ 2 from by nlinarith]
    exact Real.sqrt_sq (by linarith)
  unfold quatFromRotation
  rw [if_pos hpos, hsq]
  unfold computeTransform
  dsimp only
  rw [hsd]
  simp only [Quat.mk.injEq]
  have hne : Real.cos (v / 2) ≠ 0 := hcpos.ne'
  refine ⟨by ring, ?_, ?_, ?_⟩
  · field_simp
    ring
  · field_simp
    ring
  · field_simp
    ring

/-- C4 counterexample: for the unit axis `(0, 0, 1)` and `v = -2.5`
(within `|v| ≤ π` but with matrix trace `1 + 2·cos 2.5 ≤ 0`), Eigen's
matrix→quaternion conversion yields scalar part `-cos(1.25) < 0`, so the
code returns `2·acos(-cos 1.25) = 2π - 2.5`, which is not the magnitude
`|v| = 2.5` and lies outside `[0, π]`. -/
theorem computeVariableValues_sign_cex :
    computeVariableValues (computeTransform zAxisJoint (-2.5)) =
      2 * π - 2.5 ∧
    computeVariableValues (computeTransform zAxisJoint (-2.5)) ≠
      |(-2.5 : ℝ)| ∧
    π < computeVariableValues (computeTransform zAxisJoint (-2.5)) := by
  have hpi3 : (3:ℝ) < π := Real.pi_gt_three
  have hpiu : π < 3.15 := Real.pi_lt_d2
  have hc23 : Real.cos (2 * π / 3) = -(1 / 2) := by
    rw [show (2 * π / 3 : ℝ) = π - π / 3 from by ring, Real.cos_pi_sub,
      Real.cos_pi_div_three]
  have hc25 : Real.cos 2.5 < -(1 / 2) := by
    rw [← hc23]
    exact Real.cos_lt_cos_of_nonneg_of_le_pi (by positivity)
      (by linarith) (by linarith)
  have hs125 : 0 < Real.sin 1.25 :=
    Real.sin_pos_of_pos_of_lt_pi (by norm_num) (by linarith)
  have hcd : Real.cos 2.5 = 2 * Real.cos 1.25 ^ 2 - 1 := by
    have h2 := Real.cos_two_mul (1.25 : ℝ)
    rw [show (2 : ℝ) * 1.25 = 2.5 from by norm_num] at h2
    exact h2
  have hsd : Real.sin 2.5 = 2 * Real.sin 1.25 * Real.cos 1.25 := by
    have h2 := Real.sin_two_mul (1.25 : ℝ)
    rw [show (2 : ℝ) * 1.25 = 2.5 from by norm_num] at h2
    exact h2
  have hsc := Real.sin_sq_add_cos_sq (1.25 : ℝ)
  have hM : computeTransform zAxisJoint (-2.5) =
      ⟨Real.cos 2.5, Real.sin 2.5, 0, -Real.sin 2.5, Real.cos 2.5, 0,
       0, 0, 1⟩ := by
    unfold computeTransform zAxisJoint
    dsimp only
    rw [Real.cos_neg, Real.sin_neg]
    simp only [Matrix3.mk.injEq]
    refine ⟨by ring, by ring, by ring, by ring, by ring, by ring,
      by ring, by ring, by ring⟩
  have hsqrt : Real.sqrt ((1 : ℝ) - Real.cos 2.5 - Real.cos 2.5 + 1) =
      2 * Real.sin 1.25 := by
    rw [show ((1 : ℝ) - Real.cos 2.5 - Real.cos 2.5 + 1) =
      (2 * Real.sin 1.25) ^ 2 from by nlinarith [hcd, hsc]]
    exact Real.sqrt_sq (by linarith)
  have hq : quatFromRotation (computeTransform zAxisJoint (-2.5)) =
      ⟨-Real.cos 1.25, 0, 0, Real.sin 1.25⟩ := by
    rw [hM]
    unfold quatFromRotation
    dsimp only
    rw [if_neg (by rw [not_lt]; linarith), if_neg (lt_irrefl _),
      if_pos (by linarith), hsqrt]
    simp only [Quat.mk.injEq]
    refine ⟨?_, by norm_num, by norm_num, by ring⟩
    rw [hsd]
    field_simp
    ring
  have hval : computeVariableValues (computeTransform zAxisJoint (-2.5)) =
      2 * π - 2.5 := by
    unfold computeVariableValues
    rw [hq]
    unfold Quat.normalize
    dsimp only
    rw [show ((-Real.cos 1.25) ^ 2 + (0:ℝ) ^ 2 + (0:ℝ) ^ 2 +
      Real.sin 1.25 ^ 2 : ℝ) = 1 from by nlinarith [hsc], Real.sqrt_one,
      div_one, Real.arccos_neg,
      Real.arccos_cos (by norm_num) (by linarith)]
    ring
  refine ⟨hval, ?_, ?_⟩
  · rw [hval, show |(-2.5 : ℝ)| = 2.5 from by norm_num]
    intro heq
    linarith
  · rw [hval]
    linarith

/-- C4 (amended): for a unit rotation axis, the round trip
`computeVariableValues ∘ computeTransform` recovers `|v|` (never the
sign) for every `|v| ≤ π` in the positive-trace regime
`cos v > -1/2` (that is `|v| < 2π/3`); in particular at some negative
such `v` it returns `-v ≠ v`.  Outside that regime the conversion's sign
convention can flip the scalar part and the code returns `2π - |v|`
instead (see the counterexample). -/
theorem computeVariableValues_roundTrip (m : RevoluteJointModel)
    (hax : m.axis.1 ^ 2 + m.axis.2.1 ^ 2 + m.axis.2.2 ^ 2 = 1) :
    (∀ v : ℝ, |v| ≤ π → -(1 / 2) < Real.cos v →
      computeVariableValues (computeTransform m v) = |v|) ∧
    (∃ v : ℝ, v < 0 ∧ |v| ≤ π ∧
      computeVariableValues (computeTransform m v) = -v ∧
      computeVariableValues (computeTransform m v) ≠ v) := by
  have hpi : (0:ℝ) < π := pi_pos
  have hpi3 : (3:ℝ) < π := Real.pi_gt_three
  have main : ∀ v : ℝ, |v| ≤ π → -(1 / 2) < Real.cos v →
      computeVariableValues (computeTransform m v) = |v| := by
    intro v hv hc
    unfold computeVariableValues
    rw [quatFromRotation_pos_trace m hax v hv hc]
    unfold Quat.normalize
    dsimp only
    have hsum : Real.cos (v / 2) ^ 2 + (Real.sin (v / 2) * m.axis.1) ^ 2 +
        (Real.sin (v / 2) * m.axis.2.1) ^ 2 +
        (Real.sin (v / 2) * m.axis.2.2) ^ 2 = 1 := by
      have hsc := Real.sin_sq_add_cos_sq (v / 2)
      nlinarith [hsc, hax]
    rw [hsum, Real.sqrt_one, div_one]
    have habs2 : |v| / 2 = |v / 2| := by
      rw [abs_div]
      norm_num
    have hcos : Real.cos (v / 2) = Real.cos (|v| / 2) := by
      rw [habs2, Real.cos_abs]
    rw [hcos, Real.arccos_cos (by positivity) (by
      have := abs_nonneg v
      linarith [abs_le.mp hv])]
    ring
  have hm1 : |(-1 : ℝ)| ≤ π := by
    rw [abs_neg, abs_one]
    linarith
  have hc1 : -(1 / 2) < Real.cos (-1 : ℝ) := by
    rw [Real.cos_neg]
    have : 0 < Real.cos 1 :=
      Real.cos_pos_of_mem_Ioo ⟨by linarith, by linarith⟩
    linarith
  refine ⟨main, -1, by norm_num, hm1, ?_, ?_⟩
  · rw [main (-1) hm1 hc1, abs_neg, abs_one]
    norm_num
  · rw [main (-1) hm1 hc1, abs_neg, abs_one]
    norm_num

/-- C4 witness: unit axis `(0, 0, 1)` at `v = π/2` (positive trace). -/
theorem computeVariableValues_roundTrip_witness :
    computeVariableValues (computeTransform zAxisJoint (π / 2)) = |π / 2| :=
  (computeVariableValues_roundTrip zAxisJoint
    (by show (0:ℝ) ^ 2 + (0:ℝ) ^ 2 + (1:ℝ) ^ 2 = 1; norm_num)).1
    (π / 2) (by rw [abs_of_pos (by positivity)]; linarith [pi_pos])
    (by rw [Real.cos_pi_div_two]; norm_num)

/-- C9: the dense-vector `setStateValues` with a list whose length
differs from the model's variable count returns `false` and leaves the
state unchanged. -/
theorem setStateValues_mismatch (s : KinematicState) (vs : List ℝ)
    (h : vs.length ≠ s.variableCount) :
    (setStateValues s vs).1 = false ∧ (setStateValues s vs).2 = s := by
  unfold setStateValues
  rw [if_neg h]
  exact ⟨rfl, rfl⟩

/-- C9 witness: a one-variable state fed an empty vector. -/
theorem setStateValues_mismatch_witness :
    (setStateValues ⟨1, [0]⟩ []).1 = false ∧
    (setStateValues ⟨1, [0]⟩ []).2 = (⟨1, [0]⟩ : KinematicState) :=
  setStateValues_mismatch ⟨1, [0]⟩ [] (by simp)

end MoveitCore
